import Mathlib

/-!
Shallow embedding of the probabilistic sketch structures of the repository:
the Bloom-style membership filter (`BloomFilter`, from
`src/homeworks/hw-6/hw-1-bloom.py`) and the HyperLogLog-style cardinality
estimator (`HyperLogLog`, from `src/homeworks/hw-5/hw-2-hll.py`), together
with the password-uniqueness workflow built on the filter.

Cryptographic hashing (`hashlib.sha256`, `hashlib.blake2b`) is external
library code, abstracted here: for the filter, an item is represented by the
hash data derived from it (the two 64-bit seeds `a`, `b` unpacked from its
sha256 digest and the per-index blake2b-salted values `c i`); for the
estimator, by its 64-bit blake2b fingerprint.  Theorems quantify over all
such hash outcomes, so they hold for the concrete hash functions as a
special case.  Python float arithmetic in `count()` is idealised as exact
rational/real arithmetic (`ℚ` for the raw estimate and the branch test,
`ℝ` with `Real.log` for the returned value).
-/

/-- The single error kind raised by the constructors (`ValueError` in the
source, `InvalidParameter` in the specification). -/
inductive Err where
  | invalidParameter
deriving DecidableEq

/-- Hash data derived from one item for the membership filter: `a` and `b`
are the two 64-bit seeds unpacked from the item's base sha256 digest, and
`c i` is the 64-bit value unpacked from the blake2b hash of the digest
salted with `i`.  The hash functions are deterministic, so one item always
yields one and the same `HashData`. -/
structure HashData where
  a : Nat
  b : Nat
  c : Nat → Nat

/-- State of `BloomFilter`: bit count `size`, hash count `num_hashes`, and
the backing byte array `_bits` of `(size + 7) / 8` bytes, modelled as a list
of naturals (each byte stays below 256 because only 8-bit masks are or-ed
in). -/
structure BloomFilter where
  size : Nat
  num_hashes : Nat
  bits : List Nat
deriving DecidableEq

namespace BloomFilter

/-- `BloomFilter.__init__`: rejects `size <= 0` and `num_hashes <= 0`,
otherwise allocates `(size + 7) // 8` zero bytes. -/
def construct (size num_hashes : Int) : Except Err BloomFilter :=
  if size ≤ 0 then .error .invalidParameter
  else if num_hashes ≤ 0 then .error .invalidParameter
  else .ok ⟨size.toNat, num_hashes.toNat, List.replicate ((size.toNat + 7) / 8) 0⟩

/-- `BloomFilter._set_bit`: or the mask `1 << (idx % 8)` into byte
`idx // 8`. -/
def set_bit (bits : List Nat) (idx : Nat) : List Nat :=
  bits.set (idx / 8) (bits.getD (idx / 8) 0 ||| (1 <<< (idx % 8)))

/-- `BloomFilter._get_bit`: test the mask `1 << (idx % 8)` against byte
`idx // 8`. -/
def get_bit (bits : List Nat) (idx : Nat) : Bool :=
  (bits.getD (idx / 8) 0 &&& (1 <<< (idx % 8))) != 0

/-- `BloomFilter._hashes` on its error-free domain: the `num_hashes`
derived indices `(a + i*b + c_i) % size` for `i = 0 .. num_hashes - 1`.
This total idealisation is valid only while every loop index `i` fits in
two bytes (`i < 65536`); `hashesChecked` below models the salt-derivation
failure for larger `i`. -/
def hashes (size num_hashes : Nat) (d : HashData) : List Nat :=
  (List.range num_hashes).map (fun i => (d.a + i * d.b + d.c i) % size)

/-- One iteration of the `_hashes` loop with the salt derivation made
explicit: `salt = i.to_bytes(2, "big")` raises `OverflowError` unless
`i < 65536` (modelled as `none`); on success the blake2b-salted value
`c i` combines into the index `(a + i*b + c_i) % size`. -/
def saltedIdx (size : Nat) (d : HashData) (i : Nat) : Option Nat :=
  if i < 65536 then some ((d.a + i * d.b + d.c i) % size) else none

/-- Collects the per-iteration results of the `_hashes` loop: the list of
indices when every salt derivation succeeded, `none` (the propagated
`OverflowError`) as soon as any iteration fails. -/
def optList : List (Option Nat) → Option (List Nat)
  | [] => some []
  | o :: rest =>
    match o, optList rest with
    | some x, some xs => some (x :: xs)
    | _, _ => none

/-- `BloomFilter._hashes` with the fallible salt derivation: the `num_hashes`
derived indices when every loop index fits in two bytes, `none`
(`OverflowError`) otherwise. -/
def hashesChecked (size num_hashes : Nat) (d : HashData) : Option (List Nat) :=
  optList ((List.range num_hashes).map (saltedIdx size d))

/-- `BloomFilter.add` with the salt failure of `_hashes` made explicit. -/
def addChecked (f : BloomFilter) (d : HashData) : Option BloomFilter :=
  (hashesChecked f.size f.num_hashes d).map
    (fun idxs => { f with bits := idxs.foldl set_bit f.bits })

/-- `BloomFilter.__contains__` with the salt failure of `_hashes` made
explicit. -/
def containsChecked (f : BloomFilter) (d : HashData) : Option Bool :=
  (hashesChecked f.size f.num_hashes d).map
    (fun idxs => idxs.all (fun idx => get_bit f.bits idx))

/-- `BloomFilter.add`: set every bit at the derived indices. -/
def add (f : BloomFilter) (d : HashData) : BloomFilter :=
  { f with bits := (hashes f.size f.num_hashes d).foldl set_bit f.bits }

/-- `BloomFilter.__contains__`: true iff every derived index has its bit
set (the Python loop returns `False` at the first clear bit). -/
def contains (f : BloomFilter) (d : HashData) : Bool :=
  (hashes f.size f.num_hashes d).all (fun idx => get_bit f.bits idx)

/-- A sequence of further `add` calls. -/
def addMany (f : BloomFilter) (ds : List HashData) : BloomFilter :=
  ds.foldl add f

end BloomFilter

/-- State of `HyperLogLog`: precision `p`, register count `m = 1 << p`, and
the register byte array.  (`_alpha_m` is a pure function of `m`, computed on
demand here instead of being cached at construction.) -/
structure HyperLogLog where
  p : Nat
  m : Nat
  registers : List Nat
deriving DecidableEq

namespace HyperLogLog

/-- `HyperLogLog.__init__`: rejects `p` outside `[4, 18]`, otherwise
allocates `m = 1 << p` zeroed registers. -/
def construct (p : Int) : Except Err HyperLogLog :=
  if 4 ≤ p ∧ p ≤ 18 then
    .ok ⟨p.toNat, 1 <<< p.toNat, List.replicate (1 <<< p.toNat) 0⟩
  else .error .invalidParameter

/-- `HyperLogLog._alpha`: the bias-correction constant. -/
def alpha (m : Nat) : ℚ :=
  if m = 16 then 0.673
  else if m = 32 then 0.697
  else if m = 64 then 0.709
  else 0.7213 / (1 + 1.079 / (m : ℚ))

/-- `HyperLogLog._rho`: 1-indexed position of the leftmost set bit in a
`max_bits`-bit word (`max_bits + 1` for the zero word).  Python's
`w.bit_length()` is `Nat.size`. -/
def rho (w : Nat) (max_bits : Nat) : Nat :=
  if w = 0 then max_bits + 1 else (max_bits - Nat.size w) + 1

/-- `HyperLogLog.add`, taking the 64-bit fingerprint `h = _hash64(x)`
directly: split `h` into the top `p` bits (register index) and the low
`64 - p` bits, and raise the register to the rank if larger. -/
def add (s : HyperLogLog) (h : Nat) : HyperLogLog :=
  let idx := h >>> (64 - s.p)
  let w := h &&& ((1 <<< (64 - s.p)) - 1)
  let rank := rho w (64 - s.p)
  if s.registers.getD idx 0 < rank then
    { s with registers := s.registers.set idx rank }
  else s

/-- A sequence of `add` calls, given as the fingerprints of the items. -/
def addMany (s : HyperLogLog) (hs : List Nat) : HyperLogLog :=
  hs.foldl add s

/-- Number of zero registers (`zeros` in `HyperLogLog.count`). -/
def zeroCount (s : HyperLogLog) : Nat := s.registers.count 0

/-- The harmonic-sum indicator `Σ 2^(-registers[i])` of `HyperLogLog.count`. -/
def indicator (s : HyperLogLog) : ℚ :=
  (s.registers.map (fun v : Nat => (2 : ℚ) ^ (-(v : ℤ)))).sum

/-- The raw estimate `E = alpha_m * m**2 * (1.0 / indicator)` of
`HyperLogLog.count`. -/
def rawEstimate (s : HyperLogLog) : ℚ :=
  alpha s.m * (s.m : ℚ) ^ 2 * (1 / indicator s)

/-- `HyperLogLog.count`: linear counting `m * ln(m / zeros)` when the raw
estimate is at most `2.5 * m` and some register is zero; the raw estimate
otherwise, with no large-range correction. -/
noncomputable def count (s : HyperLogLog) : ℝ :=
  if rawEstimate s ≤ 2.5 * (s.m : ℚ) ∧ 0 < zeroCount s then
    (s.m : ℝ) * Real.log ((s.m : ℝ) / (zeroCount s : ℝ))
  else ((rawEstimate s : ℚ) : ℝ)

/-- The `count()` computation as the specification words it, for the
refinement comparison: `raw = alpha_m * m^2 / indicator`; if
`raw ≤ 2.5*m` and at least one register is zero, return the linear-counting
correction `m * ln(m / zero_count)`, otherwise return `raw` directly. -/
noncomputable def countSpec (s : HyperLogLog) : ℝ :=
  if alpha s.m * (s.m : ℚ) ^ 2 / indicator s ≤ 2.5 * (s.m : ℚ) ∧ 0 < zeroCount s then
    (s.m : ℝ) * Real.log ((s.m : ℝ) / (zeroCount s : ℝ))
  else ((alpha s.m * (s.m : ℚ) ^ 2 / indicator s : ℚ) : ℝ)

end HyperLogLog

/-- A candidate element handed to the uniqueness workflow: Python `None`, a
string, or any other object (represented by the string `str()` renders it
to). -/
inductive Candidate where
  | none
  | str (s : String)
  | obj (s : String)

/-- `s = "" if raw is None else str(raw)` in `check_password_uniqueness`. -/
def Candidate.toStr : Candidate → String
  | Candidate.none => ""
  | Candidate.str s => s
  | Candidate.obj s => s

/-- Python dict assignment `d[k] = v`: overwrite in place when the key is
present (keeping its original position), append otherwise. -/
def dictInsert (d : List (String × String)) (k v : String) : List (String × String) :=
  if d.any (fun q => q.1 == k) then
    d.map (fun q => if q.1 == k then (k, v) else q)
  else d ++ [(k, v)]

/-- Python dict lookup `d[k]` (as an option). -/
def dictLookup (d : List (String × String)) (k : String) : Option String :=
  (d.find? (fun q => q.1 == k)).map Prod.snd

/-- One iteration of the loop in `check_password_uniqueness`, over the state
(filter, results dict).  `hd` is the (deterministic) hash engine mapping a
string to its filter hash data. -/
def checkStep (hd : String → HashData) (mark_invalid : Bool)
    (st : BloomFilter × List (String × String)) (raw : Candidate) :
    BloomFilter × List (String × String) :=
  let s := raw.toStr
  let s_norm := s.trim
  if mark_invalid && (s_norm == "") then
    (st.1, dictInsert st.2 s "некоректний")
  else if st.1.contains (hd s_norm) then
    (st.1, dictInsert st.2 s "вже використаний")
  else
    (st.1.add (hd s_norm), dictInsert st.2 s "унікальний")

/-- `check_password_uniqueness`: fold the per-candidate step over the input
sequence, starting from the given filter and an empty results dict; returns
the final filter state and the results dict. -/
def check_password_uniqueness (hd : String → HashData) (bloom : BloomFilter)
    (new_passwords : List Candidate) (mark_invalid : Bool) :
    BloomFilter × List (String × String) :=
  new_passwords.foldl (checkStep hd mark_invalid) (bloom, [])

/-! ## Lemmas about the membership filter -/

namespace BloomFilter

lemma construct_ok {size num_hashes : Int} {f : BloomFilter}
    (hc : construct size num_hashes = .ok f) :
    0 < size ∧ 0 < num_hashes ∧ f.size = size.toNat ∧ f.num_hashes = num_hashes.toNat ∧
      f.bits = List.replicate ((size.toNat + 7) / 8) 0 := by
  unfold construct at hc
  split at hc
  · cases hc
  · split at hc
    · cases hc
    · cases hc
      exact ⟨by omega, by omega, rfl, rfl, rfl⟩

lemma length_set_bit (bits : List Nat) (idx : Nat) :
    (set_bit bits idx).length = bits.length := by
  simp [set_bit]

lemma get_bit_eq_testBit (bits : List Nat) (idx : Nat) :
    get_bit bits idx = (bits.getD (idx / 8) 0).testBit (idx % 8) := by
  unfold get_bit
  rw [Nat.one_shiftLeft, Nat.and_two_pow]
  cases h : (bits.getD (idx / 8) 0).testBit (idx % 8) <;> simp [h]

lemma get_bit_set_bit_self {bits : List Nat} {idx : Nat}
    (h : idx / 8 < bits.length) : get_bit (set_bit bits idx) idx = true := by
  rw [get_bit_eq_testBit, set_bit]
  rw [List.getD_eq_getElem?_getD, List.getElem?_set_self (by simpa using h)]
  simp [Nat.one_shiftLeft, Nat.testBit_two_pow_self]

lemma get_bit_mono {bits : List Nat} {i j : Nat}
    (h : get_bit bits j = true) : get_bit (set_bit bits i) j = true := by
  rw [get_bit_eq_testBit] at h ⊢
  unfold set_bit
  rcases eq_or_ne (i / 8) (j / 8) with hb | hb
  · rcases Nat.lt_or_ge (j / 8) bits.length with hlen | hlen
    · rw [List.getD_eq_getElem?_getD, hb, List.getElem?_set_self (by simpa using hlen)]
      simp only [Option.getD_some, Nat.testBit_or]
      rw [List.getD_eq_getElem?_getD] at h
      simp [h]
    · rw [List.set_eq_of_length_le (by omega)]
      exact h
  · rw [List.getD_eq_getElem?_getD, List.getElem?_set_ne hb,
      ← List.getD_eq_getElem?_getD]
    exact h

lemma get_bit_foldl_mono {idxs : List Nat} {bits : List Nat} {j : Nat}
    (h : get_bit bits j = true) :
    get_bit (idxs.foldl set_bit bits) j = true := by
  induction idxs generalizing bits with
  | nil => exact h
  | cons i rest ih => exact ih (get_bit_mono h)

lemma foldl_set_bit_length (idxs : List Nat) (bits : List Nat) :
    (idxs.foldl set_bit bits).length = bits.length := by
  induction idxs generalizing bits with
  | nil => rfl
  | cons i rest ih => rw [List.foldl_cons, ih, length_set_bit]

lemma get_bit_foldl_of_mem {idxs : List Nat} {bits : List Nat} {j : Nat}
    (hj : j ∈ idxs) (hb : j / 8 < bits.length) :
    get_bit (idxs.foldl set_bit bits) j = true := by
  induction idxs generalizing bits with
  | nil => cases hj
  | cons i rest ih =>
    rw [List.foldl_cons]
    rcases List.mem_cons.mp hj with rfl | hmem
    · exact get_bit_foldl_mono (get_bit_set_bit_self hb)
    · exact ih hmem (by rw [length_set_bit]; exact hb)

lemma hashes_length (size num_hashes : Nat) (d : HashData) :
    (hashes size num_hashes d).length = num_hashes := by
  simp [hashes]

lemma mem_hashes_lt {size num_hashes : Nat} {d : HashData} (hsz : 0 < size) :
    ∀ idx ∈ hashes size num_hashes d, idx < size := by
  intro idx hidx
  simp only [hashes, List.mem_map] at hidx
  obtain ⟨i, _, rfl⟩ := hidx
  exact Nat.mod_lt _ hsz

@[simp] lemma add_size (f : BloomFilter) (d : HashData) : (f.add d).size = f.size := rfl

@[simp] lemma add_num_hashes (f : BloomFilter) (d : HashData) :
    (f.add d).num_hashes = f.num_hashes := rfl

lemma add_bits_length (f : BloomFilter) (d : HashData) :
    (f.add d).bits.length = f.bits.length := by
  unfold add
  exact foldl_set_bit_length _ _

lemma contains_add_self {f : BloomFilter} (d : HashData)
    (hsz : 0 < f.size) (hlen : (f.size + 7) / 8 ≤ f.bits.length) :
    (f.add d).contains d = true := by
  unfold contains
  rw [List.all_eq_true]
  intro idx hidx
  rw [add_size, add_num_hashes] at hidx
  have hlt : idx < f.size := mem_hashes_lt hsz idx hidx
  exact get_bit_foldl_of_mem hidx (by omega)

lemma contains_mono_add {f : BloomFilter} {d d' : HashData}
    (h : f.contains d = true) : (f.add d').contains d = true := by
  unfold contains at h ⊢
  rw [List.all_eq_true] at h ⊢
  intro idx hidx
  rw [add_size, add_num_hashes] at hidx
  exact get_bit_foldl_mono (h idx hidx)

lemma contains_mono_addMany {f : BloomFilter} {d : HashData} {rest : List HashData}
    (h : f.contains d = true) : (f.addMany rest).contains d = true := by
  induction rest generalizing f with
  | nil => exact h
  | cons d' rest ih => exact ih (contains_mono_add h)

@[simp] lemma addMany_size (f : BloomFilter) (ds : List HashData) :
    (f.addMany ds).size = f.size := by
  induction ds generalizing f with
  | nil => rfl
  | cons d ds ih => rw [addMany, List.foldl_cons, ← addMany, ih, add_size]

@[simp] lemma addMany_num_hashes (f : BloomFilter) (ds : List HashData) :
    (f.addMany ds).num_hashes = f.num_hashes := by
  induction ds generalizing f with
  | nil => rfl
  | cons d ds ih => rw [addMany, List.foldl_cons, ← addMany, ih, add_num_hashes]

lemma addMany_bits_length (f : BloomFilter) (ds : List HashData) :
    (f.addMany ds).bits.length = f.bits.length := by
  induction ds generalizing f with
  | nil => rfl
  | cons d ds ih => rw [addMany, List.foldl_cons, ← addMany, ih, add_bits_length]

lemma optList_cons (o : Option Nat) (rest : List (Option Nat)) :
    optList (o :: rest) =
      match o, optList rest with
      | some x, some xs => some (x :: xs)
      | _, _ => none := rfl

lemma optList_map_some (sz : Nat) (d : HashData) (l : List Nat)
    (h : ∀ i ∈ l, i < 65536) :
    optList (l.map (saltedIdx sz d)) =
      some (l.map (fun i => (d.a + i * d.b + d.c i) % sz)) := by
  induction l with
  | nil => rfl
  | cons a rest ih =>
    have ha : saltedIdx sz d a = some ((d.a + a * d.b + d.c a) % sz) := by
      rw [saltedIdx, if_pos (h a (List.mem_cons_self a rest))]
    have hrest := ih (fun i hi => h i (List.mem_cons_of_mem a hi))
    rw [List.map_cons, List.map_cons, optList_cons, ha, hrest]

lemma optList_map_none (sz : Nat) (d : HashData) (l : List Nat)
    (h : ∃ i ∈ l, 65536 ≤ i) :
    optList (l.map (saltedIdx sz d)) = none := by
  induction l with
  | nil =>
    obtain ⟨i, hi, _⟩ := h
    cases hi
  | cons a rest ih =>
    rw [List.map_cons, optList_cons]
    by_cases ha : a < 65536
    · obtain ⟨i, hi, hge⟩ := h
      rcases List.mem_cons.mp hi with rfl | hmem
      · omega
      · rw [ih ⟨i, hmem, hge⟩]
        cases saltedIdx sz d a <;> rfl
    · have hsalt : saltedIdx sz d a = none := by rw [saltedIdx, if_neg ha]
      rw [hsalt]

lemma hashesChecked_of_le (sz k : Nat) (d : HashData) (hk : k ≤ 65536) :
    hashesChecked sz k d = some (hashes sz k d) :=
  optList_map_some sz d (List.range k)
    (fun i hi => by have := List.mem_range.mp hi; omega)

lemma hashesChecked_of_gt (sz k : Nat) (d : HashData) (hk : 65536 < k) :
    hashesChecked sz k d = none :=
  optList_map_none sz d (List.range k) ⟨65536, List.mem_range.mpr hk, Nat.le_refl _⟩

end BloomFilter

/-- C1: for every membership filter successfully constructed (so with
`size > 0` and `num_hashes > 0`), after any prior sequence of adds, once an
item (represented by its hash data `d`) has been added, `contains` answers
`true` for it immediately and after any further sequence of adds with
arbitrary items: the filter admits no false negatives. -/
theorem bloom_no_false_negatives (size num_hashes : Int) (f : BloomFilter)
    (pre : List HashData) (d : HashData) (post : List HashData)
    (hc : BloomFilter.construct size num_hashes = .ok f) :
    (((f.addMany pre).add d).addMany post).contains d = true := by
  obtain ⟨hs, _, hsz, _, hbits⟩ := BloomFilter.construct_ok hc
  apply BloomFilter.contains_mono_addMany
  apply BloomFilter.contains_add_self
  · rw [BloomFilter.addMany_size, hsz]
    omega
  · rw [BloomFilter.addMany_bits_length, BloomFilter.addMany_size, hbits, hsz,
      List.length_replicate]

/-- Witness: a concrete filter (`size = 8`, `num_hashes = 2`), a concrete
item, one prior and one later add; `contains` answers `true`. -/
theorem bloom_no_false_negatives_witness :
    ((((⟨8, 2, [0]⟩ : BloomFilter).addMany [⟨9, 4, fun i => i + 1⟩]).add
        ⟨1, 2, fun i => i⟩).addMany [⟨3, 4, fun i => 5 * i⟩]).contains
      ⟨1, 2, fun i => i⟩ = true :=
  bloom_no_false_negatives 8 2 ⟨8, 2, [0]⟩ [⟨9, 4, fun i => i + 1⟩] ⟨1, 2, fun i => i⟩
    [⟨3, 4, fun i => 5 * i⟩] rfl

/-- C9 counterexample: a filter with `num_hashes = 65537` constructs
successfully, but the index derivation fails — `salt = i.to_bytes(2, "big")`
overflows at `i = 65536` — so `add` and `contains` raise instead of being
total: the claim's unconditional totality is false of the code. -/
theorem bloom_positions_overflow :
    BloomFilter.construct 8 65537 = .ok ⟨8, 65537, [0]⟩ ∧
    BloomFilter.hashesChecked 8 65537 ⟨0, 0, fun _ => 0⟩ = none ∧
    BloomFilter.addChecked ⟨8, 65537, [0]⟩ ⟨0, 0, fun _ => 0⟩ = none ∧
    BloomFilter.containsChecked ⟨8, 65537, [0]⟩ ⟨0, 0, fun _ => 0⟩ = none := by
  have hn : BloomFilter.hashesChecked 8 65537 ⟨0, 0, fun _ => 0⟩ = none :=
    BloomFilter.hashesChecked_of_gt 8 65537 ⟨0, 0, fun _ => 0⟩ (by norm_num)
  refine ⟨rfl, hn, ?_, ?_⟩
  · rw [BloomFilter.addChecked]
    dsimp only
    rw [hn]
    rfl
  · rw [BloomFilter.containsChecked]
    dsimp only
    rw [hn]
    rfl

/-- C9 (amended): for every successfully constructed membership filter with
`num_hashes ≤ 65536` (every loop index then fits the two-byte salt) and
every item (abstracted by its hash data `d`), the fallible index derivation
succeeds and yields exactly the `num_hashes` total-model indices, `add` and
`contains` succeed, the `i`-th index is `(a + i*b + c_i) mod size`, every
index is in `[0, size)`, and the byte touched by every bit read/write lies
inside the allocated byte array.  For `num_hashes > 65536` the salt
derivation `i.to_bytes(2, "big")` overflows, so the unconditional totality
the original claim asserts does not hold (see the counterexample). -/
theorem bloom_positions_safe_bounded (size num_hashes : Int) (f : BloomFilter)
    (d : HashData) (hc : BloomFilter.construct size num_hashes = .ok f)
    (hk : f.num_hashes ≤ 65536) :
    BloomFilter.hashesChecked f.size f.num_hashes d =
      some (BloomFilter.hashes f.size f.num_hashes d) ∧
    BloomFilter.addChecked f d = some (f.add d) ∧
    BloomFilter.containsChecked f d = some (f.contains d) ∧
    (BloomFilter.hashes f.size f.num_hashes d).length = f.num_hashes ∧
    (∀ i, i < f.num_hashes →
      (BloomFilter.hashes f.size f.num_hashes d).getD i 0 =
        (d.a + i * d.b + d.c i) % f.size) ∧
    (∀ idx ∈ BloomFilter.hashes f.size f.num_hashes d,
      idx < f.size ∧ idx / 8 < f.bits.length) := by
  obtain ⟨hs, _, hsz, _, hbits⟩ := BloomFilter.construct_ok hc
  have hpos : 0 < f.size := by omega
  have hsome := BloomFilter.hashesChecked_of_le f.size f.num_hashes d hk
  refine ⟨hsome, ?_, ?_, BloomFilter.hashes_length _ _ _, ?_, ?_⟩
  · rw [BloomFilter.addChecked, hsome]
    rfl
  · rw [BloomFilter.containsChecked, hsome]
    rfl
  · intro i hi
    simp [BloomFilter.hashes, List.getElem?_range hi]
  · intro idx hidx
    have h1 := BloomFilter.mem_hashes_lt hpos idx hidx
    refine ⟨h1, ?_⟩
    rw [hbits, List.length_replicate]
    omega

/-- Witness: the concrete filter with `size = 10`, `num_hashes = 3` and a
concrete item; the checked derivation succeeds and `contains` succeeds. -/
theorem bloom_positions_safe_bounded_witness :
    BloomFilter.hashesChecked 10 3 ⟨7, 11, fun i => i * i⟩ =
      some (BloomFilter.hashes 10 3 ⟨7, 11, fun i => i * i⟩) ∧
    BloomFilter.containsChecked ⟨10, 3, [0, 0]⟩ ⟨7, 11, fun i => i * i⟩ =
      some (BloomFilter.contains ⟨10, 3, [0, 0]⟩ ⟨7, 11, fun i => i * i⟩) :=
  ⟨(bloom_positions_safe_bounded 10 3 ⟨10, 3, [0, 0]⟩ ⟨7, 11, fun i => i * i⟩ rfl
      (by decide)).1,
    (bloom_positions_safe_bounded 10 3 ⟨10, 3, [0, 0]⟩ ⟨7, 11, fun i => i * i⟩ rfl
      (by decide)).2.2.1⟩

/-- C7: construction fails with `InvalidParameter` exactly when an argument
is out of range (`p` outside `[4, 18]`; `size ≤ 0`; `num_hashes ≤ 0`), and
otherwise yields the fully initialised structure (`m = 2^p` zeroed
registers, respectively an all-clear byte array of `(size + 7) / 8` bytes);
in particular `p = 3` and `p = 19` fail while `p = 4` and `p = 18`
succeed. -/
theorem construct_invalid_parameter_iff (p size num_hashes : Int) :
    (HyperLogLog.construct p = .error .invalidParameter ↔ ¬(4 ≤ p ∧ p ≤ 18)) ∧
    (∀ s, HyperLogLog.construct p = .ok s →
      s.p = p.toNat ∧ s.m = 2 ^ s.p ∧ s.registers = List.replicate s.m 0) ∧
    (BloomFilter.construct size num_hashes = .error .invalidParameter ↔
      size ≤ 0 ∨ num_hashes ≤ 0) ∧
    (∀ f, BloomFilter.construct size num_hashes = .ok f →
      f.size = size.toNat ∧ f.num_hashes = num_hashes.toNat ∧
      f.bits = List.replicate ((f.size + 7) / 8) 0) ∧
    HyperLogLog.construct 3 = .error .invalidParameter ∧
    HyperLogLog.construct 19 = .error .invalidParameter ∧
    HyperLogLog.construct 4 = .ok ⟨4, 16, List.replicate 16 0⟩ ∧
    HyperLogLog.construct 18 = .ok ⟨18, 262144, List.replicate 262144 0⟩ := by
  refine ⟨?_, ?_, ?_, ?_, rfl, rfl, rfl, rfl⟩
  · unfold HyperLogLog.construct
    split <;> simp_all
  · intro s hs
    unfold HyperLogLog.construct at hs
    split at hs
    · cases hs
      exact ⟨rfl, Nat.one_shiftLeft _, rfl⟩
    · cases hs
  · unfold BloomFilter.construct
    split
    · rename_i h1
      exact iff_of_true rfl (Or.inl h1)
    · rename_i h1
      split
      · rename_i h2
        exact iff_of_true rfl (Or.inr h2)
      · rename_i h2
        exact iff_of_false (by simp) (by omega)
  · intro f hf
    obtain ⟨_, _, h1, h2, h3⟩ := BloomFilter.construct_ok hf
    exact ⟨h1, h2, by rw [h3, h1]⟩

/-! ## Lemmas about the cardinality estimator -/

namespace HyperLogLog

lemma construct_ok_fields {p : Int} {s : HyperLogLog} (hc : construct p = .ok s) :
    4 ≤ p ∧ p ≤ 18 ∧ s.p = p.toNat ∧ s.m = 2 ^ s.p ∧
      s.registers = List.replicate s.m 0 := by
  unfold construct at hc
  split at hc
  · rename_i hrange
    cases hc
    exact ⟨hrange.1, hrange.2, rfl, Nat.one_shiftLeft _, rfl⟩
  · cases hc

lemma add_def (s : HyperLogLog) (h : Nat) :
    s.add h =
      if s.registers.getD (h >>> (64 - s.p)) 0 <
          rho (h &&& ((1 <<< (64 - s.p)) - 1)) (64 - s.p) then
        ⟨s.p, s.m, s.registers.set (h >>> (64 - s.p)) (rho (h &&& ((1 <<< (64 - s.p)) - 1)) (64 - s.p))⟩
      else s := rfl

lemma rho_pos (w max_bits : Nat) : 1 ≤ rho w max_bits := by
  unfold rho
  split <;> omega

lemma rho_le (w max_bits : Nat) : rho w max_bits ≤ max_bits + 1 := by
  unfold rho
  split <;> omega

lemma getD_set_self {l : List Nat} {i x : Nat} (h : i < l.length) :
    (l.set i x).getD i 0 = x := by
  rw [List.getD_eq_getElem?_getD, List.getElem?_set_self (by simpa using h)]
  rfl

lemma getD_set_ne {l : List Nat} {i j x : Nat} (h : i ≠ j) :
    (l.set i x).getD j 0 = l.getD j 0 := by
  rw [List.getD_eq_getElem?_getD, List.getElem?_set_ne h,
    ← List.getD_eq_getElem?_getD]

@[simp] lemma add_p (s : HyperLogLog) (h : Nat) : (s.add h).p = s.p := by
  rw [add_def]
  split <;> rfl

@[simp] lemma add_m (s : HyperLogLog) (h : Nat) : (s.add h).m = s.m := by
  rw [add_def]
  split <;> rfl

lemma add_registers_length (s : HyperLogLog) (h : Nat) :
    (s.add h).registers.length = s.registers.length := by
  rw [add_def]
  split
  · exact List.length_set ..
  · rfl

lemma add_idem (s : HyperLogLog) (h : Nat) : (s.add h).add h = s.add h := by
  by_cases hb : h >>> (64 - s.p) < s.registers.length
  · rw [add_def s]
    split
    · rename_i hlt
      rw [add_def]
      dsimp only
      rw [if_neg]
      rw [getD_set_self hb]
      exact lt_irrefl _
    · rename_i hge
      rw [add_def s, if_neg hge]
  · have hs0 : s.add h = s := by
      rw [add_def, List.set_eq_of_length_le (Nat.le_of_not_lt hb)]
      split <;> rfl
    rw [hs0]
    exact hs0

lemma add_getD_mono (s : HyperLogLog) (h i : Nat) :
    s.registers.getD i 0 ≤ (s.add h).registers.getD i 0 := by
  rw [add_def]
  split
  · rename_i hlt
    dsimp only
    rcases eq_or_ne i (h >>> (64 - s.p)) with rfl | hne
    · rcases Nat.lt_or_ge (h >>> (64 - s.p)) s.registers.length with hb | hb
      · rw [getD_set_self hb]
        exact Nat.le_of_lt hlt
      · rw [List.set_eq_of_length_le hb]
    · rw [getD_set_ne (Ne.symm hne)]
  · exact Nat.le_refl _

lemma addMany_getD_mono (s : HyperLogLog) (hs : List Nat) (i : Nat) :
    s.registers.getD i 0 ≤ (s.addMany hs).registers.getD i 0 := by
  induction hs generalizing s with
  | nil => exact Nat.le_refl _
  | cons h rest ih =>
    rw [addMany, List.foldl_cons]
    exact Nat.le_trans (add_getD_mono s h i) (ih (s.add h))

lemma add_registers_bound {s : HyperLogLog} {h B : Nat} (hB : 64 - s.p + 1 ≤ B)
    (hreg : ∀ v ∈ s.registers, v ≤ B) : ∀ v ∈ (s.add h).registers, v ≤ B := by
  rw [add_def]
  split
  · intro v hv
    rcases List.mem_or_eq_of_mem_set hv with hv' | rfl
    · exact hreg v hv'
    · exact Nat.le_trans (rho_le _ _) hB
  · exact hreg

lemma addMany_registers_bound {s : HyperLogLog} {B : Nat} (hB : 64 - s.p + 1 ≤ B)
    (hreg : ∀ v ∈ s.registers, v ≤ B) (hs : List Nat) :
    ∀ v ∈ (s.addMany hs).registers, v ≤ B := by
  induction hs generalizing s with
  | nil => exact hreg
  | cons h rest ih =>
    rw [addMany, List.foldl_cons]
    exact ih (s := s.add h) (by rw [add_p]; exact hB) (add_registers_bound hB hreg)

@[simp] lemma addMany_p (s : HyperLogLog) (hs : List Nat) : (s.addMany hs).p = s.p := by
  induction hs generalizing s with
  | nil => rfl
  | cons h rest ih =>
    rw [addMany, List.foldl_cons, ← addMany, ih, add_p]

end HyperLogLog

/-- C5: adding the same item (same 64-bit fingerprint `h`, since the hash is
deterministic) `n ≥ 1` times yields exactly the same register state — and
hence the same `count()` — as adding it once. -/
theorem hll_add_idempotent (s : HyperLogLog) (h : Nat) (n : Nat) (hn : 1 ≤ n) :
    (fun t : HyperLogLog => t.add h)^[n] s = s.add h ∧
    HyperLogLog.count ((fun t : HyperLogLog => t.add h)^[n] s) =
      HyperLogLog.count (s.add h) := by
  have key : (fun t : HyperLogLog => t.add h)^[n] s = s.add h := by
    induction n with
    | zero => omega
    | succ k ih =>
      rcases Nat.eq_or_lt_of_le hn with h1 | h1
      · rw [← h1]
        rfl
      · rw [Function.iterate_succ_apply', ih (by omega)]
        exact HyperLogLog.add_idem s h
  exact ⟨key, by rw [key]⟩

/-- Witness: a concrete estimator and fingerprint, added twice. -/
theorem hll_add_idempotent_witness :
    (fun t : HyperLogLog => t.add 12345)^[2] ⟨4, 16, List.replicate 16 0⟩ =
      HyperLogLog.add ⟨4, 16, List.replicate 16 0⟩ 12345 ∧
    HyperLogLog.count ((fun t : HyperLogLog => t.add 12345)^[2] ⟨4, 16, List.replicate 16 0⟩) =
      HyperLogLog.count (HyperLogLog.add ⟨4, 16, List.replicate 16 0⟩ 12345) :=
  hll_add_idempotent ⟨4, 16, List.replicate 16 0⟩ 12345 2 (by decide)

/-- C8: from any successfully constructed estimator, after any sequence of
adds every register value lies in `[0, (64 - p) + 1]`; and from any
estimator state, registers only ever grow under `add` (they are
monotonically non-decreasing over the estimator's lifetime). -/
theorem hll_register_invariants (p : Int) (s : HyperLogLog) (hs : List Nat)
    (hc : HyperLogLog.construct p = .ok s) :
    (∀ v ∈ (s.addMany hs).registers, v ≤ (64 - s.p) + 1) ∧
    (∀ t : HyperLogLog, ∀ hs' : List Nat, ∀ i : Nat,
      t.registers.getD i 0 ≤ (t.addMany hs').registers.getD i 0) := by
  obtain ⟨_, _, _, _, hreg⟩ := HyperLogLog.construct_ok_fields hc
  refine ⟨?_, fun t hs' i => HyperLogLog.addMany_getD_mono t hs' i⟩
  apply HyperLogLog.addMany_registers_bound (Nat.le_refl _)
  intro v hv
  rw [hreg] at hv
  rw [List.eq_of_mem_replicate hv]
  exact Nat.zero_le _

/-- Witness: the fresh `p = 4` estimator with one concrete add. -/
theorem hll_register_invariants_witness :
    (∀ v ∈ ((⟨4, 16, List.replicate 16 0⟩ : HyperLogLog).addMany [98765]).registers,
      v ≤ (64 - (4 : Nat)) + 1) ∧
    (∀ t : HyperLogLog, ∀ hs' : List Nat, ∀ i : Nat,
      t.registers.getD i 0 ≤ (t.addMany hs').registers.getD i 0) :=
  hll_register_invariants 4 ⟨4, 16, List.replicate 16 0⟩ [98765] rfl

/-- C2: for every estimator state with `p ≤ 18`, `m = 2^p` registers, and
every 64-bit fingerprint `h` (the hash of the item): the register index is
the top `p` bits of `h` (hence below `m`), the masked word is the remaining
low `64 - p` bits `w = h mod 2^(64-p)` (so `h = idx * 2^(64-p) + w`), the
rank is the 1-indexed position of the leftmost set bit of `w` within the
`(64-p)`-bit window — `(64-p)+1` when `w = 0` — and `add` sets register
`idx` to the maximum of its old value and the rank, leaving every other
register unchanged. -/
theorem hll_add_decomposition (s : HyperLogLog) (h : Nat)
    (hh : h < 2 ^ 64) (hp : s.p ≤ 18) (hm : s.m = 2 ^ s.p)
    (hlen : s.registers.length = s.m) :
    h >>> (64 - s.p) < s.m ∧
    h &&& ((1 <<< (64 - s.p)) - 1) = h % 2 ^ (64 - s.p) ∧
    h = (h >>> (64 - s.p)) * 2 ^ (64 - s.p) + h % 2 ^ (64 - s.p) ∧
    (h % 2 ^ (64 - s.p) = 0 →
      HyperLogLog.rho (h % 2 ^ (64 - s.p)) (64 - s.p) = (64 - s.p) + 1) ∧
    (h % 2 ^ (64 - s.p) ≠ 0 →
      1 ≤ HyperLogLog.rho (h % 2 ^ (64 - s.p)) (64 - s.p) ∧
      HyperLogLog.rho (h % 2 ^ (64 - s.p)) (64 - s.p) ≤ 64 - s.p ∧
      (h % 2 ^ (64 - s.p)).testBit
        (64 - s.p - HyperLogLog.rho (h % 2 ^ (64 - s.p)) (64 - s.p)) = true ∧
      (∀ j, 64 - s.p - HyperLogLog.rho (h % 2 ^ (64 - s.p)) (64 - s.p) < j →
        (h % 2 ^ (64 - s.p)).testBit j = false)) ∧
    (s.add h).registers.getD (h >>> (64 - s.p)) 0 =
      max (s.registers.getD (h >>> (64 - s.p)) 0)
        (HyperLogLog.rho (h % 2 ^ (64 - s.p)) (64 - s.p)) ∧
    (∀ j, j ≠ h >>> (64 - s.p) →
      (s.add h).registers.getD j 0 = s.registers.getD j 0) := by
  have epos : (0 : Nat) < 2 ^ (64 - s.p) := Nat.two_pow_pos _
  have hmask : h &&& ((1 <<< (64 - s.p)) - 1) = h % 2 ^ (64 - s.p) := by
    rw [Nat.one_shiftLeft]
    exact Nat.and_pow_two_sub_one_eq_mod h _
  have hidx : h >>> (64 - s.p) < 2 ^ s.p := by
    rw [Nat.shiftRight_eq_div_pow]
    apply Nat.div_lt_of_lt_mul
    calc h < 2 ^ 64 := hh
    _ = 2 ^ (64 - s.p) * 2 ^ s.p := by
        rw [← pow_add]
        congr 1
        omega
  have hsplit : h = (h >>> (64 - s.p)) * 2 ^ (64 - s.p) + h % 2 ^ (64 - s.p) := by
    rw [Nat.shiftRight_eq_div_pow]
    exact (Nat.div_add_mod' h _).symm
  have hrank : ∀ w : Nat, w ≠ 0 → w < 2 ^ (64 - s.p) →
      1 ≤ HyperLogLog.rho w (64 - s.p) ∧
      HyperLogLog.rho w (64 - s.p) ≤ 64 - s.p ∧
      w.testBit (64 - s.p - HyperLogLog.rho w (64 - s.p)) = true ∧
      ∀ j, 64 - s.p - HyperLogLog.rho w (64 - s.p) < j → w.testBit j = false := by
    intro w hw0 hwlt
    have ht1 : 1 ≤ Nat.size w := Nat.size_pos.mpr (Nat.pos_of_ne_zero hw0)
    have hte : Nat.size w ≤ 64 - s.p := Nat.size_le.mpr hwlt
    have he : 46 ≤ 64 - s.p := by omega
    have hrho : HyperLogLog.rho w (64 - s.p) = (64 - s.p - Nat.size w) + 1 := by
      rw [HyperLogLog.rho, if_neg hw0]
    rw [hrho]
    refine ⟨by omega, by omega, ?_, ?_⟩
    · have harg : 64 - s.p - ((64 - s.p - Nat.size w) + 1) = Nat.size w - 1 := by
        omega
      rw [harg]
      have h1 : 2 ^ (Nat.size w - 1) ≤ w := Nat.lt_size.mp (by omega)
      have h2 : w < 2 ^ Nat.size w := Nat.lt_size_self w
      have hdiv : w / 2 ^ (Nat.size w - 1) = 1 := by
        have hlow : 1 ≤ w / 2 ^ (Nat.size w - 1) :=
          (Nat.one_le_div_iff (Nat.two_pow_pos _)).mpr h1
        have hhigh : w / 2 ^ (Nat.size w - 1) < 2 := by
          apply Nat.div_lt_of_lt_mul
          calc w < 2 ^ Nat.size w := h2
          _ = 2 ^ (Nat.size w - 1) * 2 := by
              rw [← pow_succ]
              congr 1
              omega
        omega
      rw [Nat.testBit_to_div_mod, hdiv]
      decide
    · intro j hj
      apply Nat.testBit_lt_two_pow
      calc w < 2 ^ Nat.size w := Nat.lt_size_self w
      _ ≤ 2 ^ j := Nat.pow_le_pow_right (by norm_num) (by omega)
  have hidxm : h >>> (64 - s.p) < s.registers.length := by
    rw [hlen, hm]
    exact hidx
  refine ⟨by rw [hm]; exact hidx, hmask, hsplit, ?_, ?_, ?_, ?_⟩
  · intro h0
    rw [h0]
    simp [HyperLogLog.rho]
  · intro hne
    exact hrank _ hne (Nat.mod_lt _ epos)
  · rw [HyperLogLog.add_def, hmask]
    split
    · rename_i hlt
      dsimp only
      rw [HyperLogLog.getD_set_self hidxm]
      exact (Nat.max_eq_right (Nat.le_of_lt hlt)).symm
    · rename_i hge
      exact (Nat.max_eq_left (Nat.le_of_not_lt hge)).symm
  · intro j hj
    rw [HyperLogLog.add_def]
    split
    · dsimp only
      exact HyperLogLog.getD_set_ne (Ne.symm hj)
    · rfl

namespace HyperLogLog

lemma alpha_le_five_halves (m : Nat) : alpha m ≤ 5 / 2 := by
  unfold alpha
  split
  · norm_num
  · split
    · norm_num
    · split
      · norm_num
      · have h1 : (0 : ℚ) ≤ 1.079 / (m : ℚ) := by positivity
        have h2 : (1 : ℚ) ≤ 1 + 1.079 / (m : ℚ) := by linarith
        calc (0.7213 : ℚ) / (1 + 1.079 / (m : ℚ)) ≤ 0.7213 :=
            div_le_self (by norm_num) h2
        _ ≤ 5 / 2 := by norm_num

lemma indicator_fresh {s : HyperLogLog} (hreg : s.registers = List.replicate s.m 0) :
    indicator s = (s.m : ℚ) := by
  rw [indicator, hreg, List.map_replicate]
  simp

lemma zeroCount_fresh {s : HyperLogLog} (hreg : s.registers = List.replicate s.m 0) :
    zeroCount s = s.m := by
  rw [zeroCount, hreg]
  simp

lemma rawEstimate_fresh {s : HyperLogLog} (hm : 0 < s.m)
    (hreg : s.registers = List.replicate s.m 0) :
    rawEstimate s = alpha s.m * (s.m : ℚ) := by
  have hm0 : ((s.m : ℚ)) ≠ 0 := Nat.cast_ne_zero.mpr (Nat.pos_iff_ne_zero.mp hm)
  rw [rawEstimate, indicator_fresh hreg]
  field_simp
  ring

end HyperLogLog

/-- C4: a freshly constructed estimator (any valid `p`) reports
`count() = 0`: the all-zero register state takes the linear-counting branch
and yields `m * ln(m/m) = 0`. -/
theorem hll_fresh_count_zero (p : Int) (s : HyperLogLog)
    (hc : HyperLogLog.construct p = .ok s) : s.count = 0 := by
  obtain ⟨_, _, _, hm, hreg⟩ := HyperLogLog.construct_ok_fields hc
  have hmpos : 0 < s.m := by
    rw [hm]
    exact Nat.two_pow_pos _
  have hmq : (0 : ℚ) ≤ (s.m : ℚ) := Nat.cast_nonneg _
  have hcond : HyperLogLog.rawEstimate s ≤ 2.5 * (s.m : ℚ) := by
    rw [HyperLogLog.rawEstimate_fresh hmpos hreg]
    calc HyperLogLog.alpha s.m * (s.m : ℚ) ≤ 5 / 2 * (s.m : ℚ) :=
        mul_le_mul_of_nonneg_right (HyperLogLog.alpha_le_five_halves s.m) hmq
    _ = 2.5 * (s.m : ℚ) := by norm_num
  have hzero : 0 < HyperLogLog.zeroCount s := by
    rw [HyperLogLog.zeroCount_fresh hreg]
    exact hmpos
  rw [HyperLogLog.count, if_pos ⟨hcond, hzero⟩, HyperLogLog.zeroCount_fresh hreg]
  rw [div_self (Nat.cast_ne_zero.mpr (Nat.pos_iff_ne_zero.mp hmpos))]
  rw [Real.log_one, mul_zero]

/-- Witness: the fresh `p = 5` estimator reports `count() = 0`. -/
theorem hll_fresh_count_zero_witness :
    HyperLogLog.count ⟨5, 32, List.replicate 32 0⟩ = 0 :=
  hll_fresh_count_zero 5 ⟨5, 32, List.replicate 32 0⟩ rfl

/-- Witness for the decomposition theorem: the fresh `p = 4` estimator and
fingerprint `12345` (so `idx = 12345 >>> 60 = 0`, `w = 12345`). -/
theorem hll_add_decomposition_witness :
    12345 < 2 ^ 64 ∧
    ((⟨4, 16, List.replicate 16 0⟩ : HyperLogLog).add 12345).registers.getD
        (12345 >>> 60) 0 =
      max ((List.replicate 16 0).getD (12345 >>> 60) 0)
        (HyperLogLog.rho (12345 % 2 ^ 60) 60) :=
  ⟨by norm_num,
    (hll_add_decomposition ⟨4, 16, List.replicate 16 0⟩ 12345 (by norm_num)
      (by decide) rfl rfl).2.2.2.2.2.1⟩

/-- C3: `count()` agrees with the specification's formulation (raw estimate
written as a division), takes the linear-counting branch exactly when
`raw ≤ 2.5*m` and some register is zero, returns the raw estimate unchanged
otherwise (no large-range correction), and the bias constant `alpha_m` has
the documented literal values for `m = 16/32/64` and the closed form
`0.7213 / (1 + 1.079/m)` for every other `m`. -/
theorem hll_count_characterization (s : HyperLogLog) :
    s.count = HyperLogLog.countSpec s ∧
    (HyperLogLog.rawEstimate s ≤ 2.5 * (s.m : ℚ) ∧ 0 < HyperLogLog.zeroCount s →
      s.count = (s.m : ℝ) * Real.log ((s.m : ℝ) / (HyperLogLog.zeroCount s : ℝ))) ∧
    (¬(HyperLogLog.rawEstimate s ≤ 2.5 * (s.m : ℚ) ∧ 0 < HyperLogLog.zeroCount s) →
      s.count = ((HyperLogLog.rawEstimate s : ℚ) : ℝ)) ∧
    HyperLogLog.alpha 16 = 0.673 ∧
    HyperLogLog.alpha 32 = 0.697 ∧
    HyperLogLog.alpha 64 = 0.709 ∧
    (∀ m', m' ≠ 16 → m' ≠ 32 → m' ≠ 64 →
      HyperLogLog.alpha m' = 0.7213 / (1 + 1.079 / (m' : ℚ))) := by
  have hEq : HyperLogLog.rawEstimate s =
      HyperLogLog.alpha s.m * (s.m : ℚ) ^ 2 / HyperLogLog.indicator s := by
    rw [HyperLogLog.rawEstimate, mul_one_div]
  refine ⟨?_, ?_, ?_, rfl, rfl, rfl, ?_⟩
  · rw [HyperLogLog.count, HyperLogLog.countSpec, hEq]
  · intro hcond
    rw [HyperLogLog.count, if_pos hcond]
  · intro hcond
    rw [HyperLogLog.count, if_neg hcond]
  · intro m' h1 h2 h3
    rw [HyperLogLog.alpha, if_neg h1, if_neg h2, if_neg h3]

/-- Witness: on the fresh `p = 4` estimator the branch condition holds and
`count` takes the linear-counting form. -/
theorem hll_count_characterization_witness :
    (HyperLogLog.rawEstimate ⟨4, 16, List.replicate 16 0⟩ ≤ 2.5 * ((16 : Nat) : ℚ) ∧
      0 < HyperLogLog.zeroCount ⟨4, 16, List.replicate 16 0⟩) ∧
    HyperLogLog.count ⟨4, 16, List.replicate 16 0⟩ =
      ((16 : Nat) : ℝ) *
        Real.log (((16 : Nat) : ℝ) /
          ((HyperLogLog.zeroCount ⟨4, 16, List.replicate 16 0⟩ : Nat) : ℝ)) := by
  have hcond : HyperLogLog.rawEstimate ⟨4, 16, List.replicate 16 0⟩ ≤
      2.5 * ((16 : Nat) : ℚ) ∧
      0 < HyperLogLog.zeroCount ⟨4, 16, List.replicate 16 0⟩ := by
    constructor
    · norm_num [HyperLogLog.rawEstimate, HyperLogLog.indicator, HyperLogLog.alpha,
        List.map_replicate]
    · norm_num [HyperLogLog.zeroCount]
  exact ⟨hcond, (hll_count_characterization ⟨4, 16, List.replicate 16 0⟩).2.1 hcond⟩

/-! ## Lemmas about the uniqueness-check workflow -/

lemma find?_map_upsert (d : List (String × String)) (k v : String)
    (hany : d.any (fun q => q.1 == k) = true) :
    (d.map (fun q => if q.1 == k then (k, v) else q)).find? (fun q => q.1 == k) =
      some (k, v) := by
  induction d with
  | nil => simp at hany
  | cons q rest ih =>
    rw [List.map_cons]
    by_cases hq : (q.1 == k) = true
    · rw [if_pos hq]
      apply List.find?_cons_of_pos
      simp
    · rw [if_neg hq, List.find?_cons_of_neg _ (by simpa using hq)]
      apply ih
      rw [List.any_cons] at hany
      simpa [hq] using hany

lemma find?_append_new (d : List (String × String)) (k v : String)
    (hany : d.any (fun q => q.1 == k) = false) :
    (d ++ [(k, v)]).find? (fun q => q.1 == k) = some (k, v) := by
  rw [List.find?_append]
  have hnone : d.find? (fun q => q.1 == k) = none := by
    rw [List.find?_eq_none]
    intro x hx hpx
    have hc : d.any (fun q => q.1 == k) = true := List.any_eq_true.mpr ⟨x, hx, hpx⟩
    rw [hany] at hc
    cases hc
  rw [hnone]
  simp

lemma dictLookup_dictInsert (d : List (String × String)) (k v : String) :
    dictLookup (dictInsert d k v) k = some v := by
  unfold dictInsert dictLookup
  split
  · rename_i hany
    rw [find?_map_upsert d k v hany]
    rfl
  · rename_i hany
    rw [find?_append_new d k v (Bool.eq_false_iff.mpr hany)]
    rfl

lemma checkStep_invalid (hd : String → HashData) (mi : Bool)
    (st : BloomFilter × List (String × String)) (raw : Candidate)
    (h : (mi && (raw.toStr.trim == "")) = true) :
    checkStep hd mi st raw = (st.1, dictInsert st.2 raw.toStr "некоректний") := by
  simp only [checkStep]
  rw [if_pos h]

lemma checkStep_already_used (hd : String → HashData) (mi : Bool)
    (st : BloomFilter × List (String × String)) (raw : Candidate)
    (h1 : (mi && (raw.toStr.trim == "")) = false)
    (h2 : st.1.contains (hd raw.toStr.trim) = true) :
    checkStep hd mi st raw = (st.1, dictInsert st.2 raw.toStr "вже використаний") := by
  simp only [checkStep]
  rw [if_neg (by simp [h1]), if_pos h2]

lemma checkStep_unique (hd : String → HashData) (mi : Bool)
    (st : BloomFilter × List (String × String)) (raw : Candidate)
    (h1 : (mi && (raw.toStr.trim == "")) = false)
    (h2 : st.1.contains (hd raw.toStr.trim) = false) :
    checkStep hd mi st raw =
      (st.1.add (hd raw.toStr.trim), dictInsert st.2 raw.toStr "унікальний") := by
  simp only [checkStep]
  rw [if_neg (by simp [h1]), if_neg (by simp [h2])]

lemma checkStep_fst (hd : String → HashData) (mi : Bool)
    (st : BloomFilter × List (String × String)) (raw : Candidate) :
    (checkStep hd mi st raw).1 = st.1 ∨
    (checkStep hd mi st raw).1 = st.1.add (hd raw.toStr.trim) := by
  simp only [checkStep]
  split
  · exact Or.inl rfl
  · split
    · exact Or.inl rfl
    · exact Or.inr rfl

lemma checkStep_snd (hd : String → HashData) (mi : Bool)
    (st : BloomFilter × List (String × String)) (raw : Candidate) :
    (checkStep hd mi st raw).2 = dictInsert st.2 raw.toStr "некоректний" ∨
    (checkStep hd mi st raw).2 = dictInsert st.2 raw.toStr "вже використаний" ∨
    (checkStep hd mi st raw).2 = dictInsert st.2 raw.toStr "унікальний" := by
  simp only [checkStep]
  split
  · exact Or.inl rfl
  · split
    · exact Or.inr (Or.inl rfl)
    · exact Or.inr (Or.inr rfl)

lemma foldl_checkStep_size (hd : String → HashData) (mi : Bool) (l : List Candidate)
    (st : BloomFilter × List (String × String)) :
    (l.foldl (checkStep hd mi) st).1.size = st.1.size ∧
    (l.foldl (checkStep hd mi) st).1.bits.length = st.1.bits.length := by
  induction l generalizing st with
  | nil => exact ⟨rfl, rfl⟩
  | cons c rest ih =>
    rw [List.foldl_cons]
    obtain ⟨h1, h2⟩ := ih (checkStep hd mi st c)
    constructor
    · rw [h1]
      rcases checkStep_fst hd mi st c with he | he
      · rw [he]
      · rw [he, BloomFilter.add_size]
    · rw [h2]
      rcases checkStep_fst hd mi st c with he | he
      · rw [he]
      · rw [he, BloomFilter.add_bits_length]

lemma foldl_checkStep_contains (hd : String → HashData) (mi : Bool) (l : List Candidate)
    (st : BloomFilter × List (String × String)) (d : HashData)
    (h : st.1.contains d = true) :
    (l.foldl (checkStep hd mi) st).1.contains d = true := by
  induction l generalizing st with
  | nil => exact h
  | cons c rest ih =>
    rw [List.foldl_cons]
    apply ih
    rcases checkStep_fst hd mi st c with he | he
    · rw [he]
      exact h
    · rw [he]
      exact BloomFilter.contains_mono_add h

lemma contains_after_checkStep (hd : String → HashData) (mi : Bool)
    (st : BloomFilter × List (String × String)) (raw : Candidate)
    (hcond : (mi && (raw.toStr.trim == "")) = false)
    (hsz : 0 < st.1.size) (hlen : (st.1.size + 7) / 8 ≤ st.1.bits.length) :
    (checkStep hd mi st raw).1.contains (hd raw.toStr.trim) = true := by
  simp only [checkStep]
  rw [if_neg (by simp [hcond])]
  split
  · rename_i hc
    exact hc
  · exact BloomFilter.contains_add_self _ hsz hlen

/-- C6: the uniqueness-check workflow folds over the candidates in order
(last conjunct); per candidate it marks invalid exactly when validation is
on and the trimmed candidate is empty, marks already-used when the filter
contains the trimmed candidate, and otherwise marks unique and immediately
adds the candidate to the filter (middle conjuncts); consequently a later
repeat of the same candidate within one call is marked already-used and,
the results dict being keyed by the raw string with later statuses
overwriting earlier ones, the final entry for that raw key says
already-used (first conjunct). -/
theorem check_password_uniqueness_policy (hd : String → HashData)
    (bloom : BloomFilter) (mark_invalid : Bool) (l1 l2 : List Candidate)
    (x : Candidate) (hsz : 0 < bloom.size)
    (hlen : (bloom.size + 7) / 8 ≤ bloom.bits.length)
    (hx : mark_invalid = true → x.toStr.trim ≠ "") :
    dictLookup
        (check_password_uniqueness hd bloom (l1 ++ [x] ++ l2 ++ [x]) mark_invalid).2
        x.toStr = some "вже використаний" ∧
    (∀ st raw, (mark_invalid && (Candidate.toStr raw |>.trim) == "") = true →
      checkStep hd mark_invalid st raw = (st.1, dictInsert st.2 raw.toStr "некоректний")) ∧
    (∀ st raw, (mark_invalid && (Candidate.toStr raw |>.trim) == "") = false →
      st.1.contains (hd (Candidate.toStr raw |>.trim)) = true →
      checkStep hd mark_invalid st raw =
        (st.1, dictInsert st.2 raw.toStr "вже використаний")) ∧
    (∀ st raw, (mark_invalid && (Candidate.toStr raw |>.trim) == "") = false →
      st.1.contains (hd (Candidate.toStr raw |>.trim)) = false →
      checkStep hd mark_invalid st raw =
        (st.1.add (hd (Candidate.toStr raw |>.trim)),
          dictInsert st.2 raw.toStr "унікальний")) ∧
    (∀ l : List Candidate, check_password_uniqueness hd bloom l mark_invalid =
      l.foldl (checkStep hd mark_invalid) (bloom, [])) := by
  have hcondx : (mark_invalid && (x.toStr.trim == "")) = false := by
    cases hmi : mark_invalid
    · rfl
    · simp [hx hmi]
  refine ⟨?_, checkStep_invalid hd mark_invalid, checkStep_already_used hd mark_invalid,
    checkStep_unique hd mark_invalid, fun l => rfl⟩
  have hrun : check_password_uniqueness hd bloom (l1 ++ [x] ++ l2 ++ [x]) mark_invalid =
      checkStep hd mark_invalid
        (l2.foldl (checkStep hd mark_invalid)
          (checkStep hd mark_invalid
            (l1.foldl (checkStep hd mark_invalid) (bloom, [])) x)) x := by
    unfold check_password_uniqueness
    rw [List.foldl_append, List.foldl_append, List.foldl_append]
    rfl
  rw [hrun]
  obtain ⟨hsz1, hlen1⟩ := foldl_checkStep_size hd mark_invalid l1 (bloom, [])
  have hszx : 0 < (l1.foldl (checkStep hd mark_invalid) (bloom, [])).1.size := by
    rw [hsz1]
    exact hsz
  have hlenx : ((l1.foldl (checkStep hd mark_invalid) (bloom, [])).1.size + 7) / 8 ≤
      (l1.foldl (checkStep hd mark_invalid) (bloom, [])).1.bits.length := by
    rw [hsz1, hlen1]
    exact hlen
  have hcont1 := contains_after_checkStep hd mark_invalid
    (l1.foldl (checkStep hd mark_invalid) (bloom, [])) x hcondx hszx hlenx
  have hcont2 := foldl_checkStep_contains hd mark_invalid l2 _ _ hcont1
  rw [checkStep_already_used hd mark_invalid _ x hcondx hcont2]
  exact dictLookup_dictInsert _ _ _

/-- Witness: the concrete filter `size = 8`, `num_hashes = 2`, a constant
hash engine, validation on, and the candidate `"ab"` repeated; its final
status is already-used. -/
theorem check_password_uniqueness_policy_witness :
    dictLookup
        (check_password_uniqueness (fun _ => ⟨0, 0, fun _ => 0⟩) ⟨8, 2, [0]⟩
          ([] ++ [Candidate.str "ab"] ++ [] ++ [Candidate.str "ab"]) false).2
        (Candidate.str "ab").toStr = some "вже використаний" :=
  (check_password_uniqueness_policy (fun _ => ⟨0, 0, fun _ => 0⟩) ⟨8, 2, [0]⟩ false
    [] [] (Candidate.str "ab") (by decide) (by decide)
    (fun h => Bool.noConfusion h)).1

/-- C10: the workflow accepts candidates of any shape — `None` is treated
as the empty string and any other object is rendered with `str()` before
trimming and filter lookup — the function is total, and the results dict is
keyed by that converted raw string (every processed candidate ends up with
some status under its converted key). -/
theorem check_password_uniqueness_any_candidate (hd : String → HashData)
    (bloom : BloomFilter) (mark_invalid : Bool) (l : List Candidate)
    (c : Candidate) :
    (dictLookup (check_password_uniqueness hd bloom (l ++ [c]) mark_invalid).2
      c.toStr).isSome = true ∧
    Candidate.toStr Candidate.none = "" ∧
    (∀ t, Candidate.toStr (Candidate.str t) = t) ∧
    (∀ t, Candidate.toStr (Candidate.obj t) = t) := by
  refine ⟨?_, rfl, fun t => rfl, fun t => rfl⟩
  have hrun : check_password_uniqueness hd bloom (l ++ [c]) mark_invalid =
      checkStep hd mark_invalid (l.foldl (checkStep hd mark_invalid) (bloom, [])) c := by
    unfold check_password_uniqueness
    rw [List.foldl_append]
    rfl
  rw [hrun]
  rcases checkStep_snd hd mark_invalid (l.foldl (checkStep hd mark_invalid) (bloom, [])) c
    with he | he | he <;>
    rw [he, dictLookup_dictInsert] <;> rfl
